import Mathlib

set_option maxHeartbeats 1000000

/- Shallow embedding of the token-aware chunking engine (`src/chunker.py`).
Python strings are modelled as lists of characters, token ids as natural
numbers, and a tiktoken encoding as a pair of functions.  Dictionaries are
modelled as association lists. -/

/-- A tokenizer: models the tiktoken encoding object used by `TextChunker`
(`encode(text) -> ids`, `decode(ids) -> text`). -/
structure Encoding where
  encode : List Char → List Nat
  decode : List Nat → List Char

/-- A concrete character-level tokenizer used for evaluation: every
character is one token (its code point). -/
def charEnc : Encoding where
  encode s := s.map Char.toNat
  decode ts := ts.map Char.ofNat

/-- Models Python `str.strip(chars)`: removes the characters satisfying `p`
from both ends of the string. -/
def pyStrip (p : Char → Bool) (l : List Char) : List Char :=
  ((l.dropWhile p).reverse.dropWhile p).reverse

/-- Models Python `str.strip()` with no argument: whitespace stripped from
both ends. -/
def trim (l : List Char) : List Char := pyStrip Char.isWhitespace l

/-- The Unicode replacement character U+FFFD that `chunk_by_tokens` strips
from decoded window text. -/
def replChar : Char := Char.ofNat 0xFFFD

/-- The `Chunk` dataclass of `chunker.py`. -/
structure Chunk where
  text : List Char
  doc_id : List Char
  chunk_id : Nat
  start_idx : Nat
  end_idx : Nat
  token_count : Nat
  metadata : List (String × String)
deriving Repr, DecidableEq, Inhabited

/-- Dictionary-key membership for the metadata model (Python `"k" in d`). -/
def hasKey (m : List (String × String)) (k : String) : Bool :=
  m.any (fun kv => kv.1 == k)

/-- Models `TextChunker.__init__` (chunker.py lines 27-34): the only
validation performed is `chunk_overlap >= chunk_size -> raise ValueError`;
on success the stored configuration is exactly the pair passed in, with no
clamping. -/
def TextChunker.init (chunk_size chunk_overlap : Int) : Except String (Int × Int) :=
  if chunk_size ≤ chunk_overlap then
    Except.error "chunk_overlap must be less than chunk_size"
  else
    Except.ok (chunk_size, chunk_overlap)

/-- First character of the remaining input is whitespace (the `\s` lookahead
of the sentence-splitting regex). -/
def headIsWS : List Char → Bool
  | [] => false
  | d :: _ => d.isWhitespace

/-- The sentence-ending punctuation class `[.!?]` of the split regex. -/
def isSentEnd (c : Char) : Bool := c == '.' || c == '!' || c == '?'

/-- Worker for `re.split(r'(?<=[.!?])\s+', text)`: accumulates the current
piece (reversed) and splits after `[.!?]` when the next character is
whitespace, consuming the maximal whitespace run as the separator.  The
recursion is driven by a fuel counter so that it is structural (the scan
consumes at least one character per step, so any fuel above the input
length is enough and the zero-fuel case is unreachable). -/
def sentSplitGo : Nat → List Char → List Char → List (List Char)
  | 0, acc, _ => [acc.reverse]
  | _ + 1, acc, [] => [acc.reverse]
  | fuel + 1, acc, c :: rest =>
    if isSentEnd c && headIsWS rest then
      (c :: acc).reverse :: sentSplitGo fuel [] (rest.dropWhile Char.isWhitespace)
    else
      sentSplitGo fuel (c :: acc) rest

/-- Models `re.split(r'(?<=[.!?])\s+', text)` in `chunk_by_sentences`. -/
def re_split_sentences (text : List Char) : List (List Char) :=
  sentSplitGo (text.length + 1) [] text

/-- The Python slice `tokens[s:e]` for `s ≤ e ≤ tokens.length`. -/
def pySlice (l : List Nat) (s e : Nat) : List Nat := (l.take e).drop s

/-- The decoded, replacement-character-stripped text of one token window
(`chunk_by_tokens` lines 221-225). -/
def windowText (enc : Encoding) (tokens : List Nat) (s e : Nat) : List Char :=
  pyStrip (fun c => c == replChar) (enc.decode (pySlice tokens s e))

/-- The `while start < len(tokens)` loop of `TextChunker.chunk_by_tokens`
(lines 217-239), with `step = chunk_size - chunk_overlap`.  The source loop
terminates exactly when the step is positive, which every validated
configuration guarantees; the model returns `[]` for a zero step. -/
def tokenLoop (size step : Nat) (enc : Encoding) (tokens : List Nat)
    (docId : List Char) (start chunkId : Nat) : List Chunk :=
  if h : 0 < step ∧ start < tokens.length then
    let e := min (start + size) tokens.length
    let ctext := windowText enc tokens start e
    if (trim ctext).isEmpty then
      tokenLoop size step enc tokens docId (start + step) chunkId
    else
      { text := ctext, doc_id := docId, chunk_id := chunkId, start_idx := start,
        end_idx := e, token_count := e - start,
        metadata := [("strategy", "token_window")] } ::
        tokenLoop size step enc tokens docId (start + step) (chunkId + 1)
  else []
termination_by tokens.length - start
decreasing_by all_goals omega

/-- A fuel-driven, structurally recursive version of `tokenLoop`: every
iteration advances `start` by at least one for a positive step, so any fuel
above the token count makes the two definitions agree (`tokenLoopF_eq`). -/
def tokenLoopF (size step : Nat) (enc : Encoding) (tokens : List Nat)
    (docId : List Char) : Nat → Nat → Nat → List Chunk
  | 0, _, _ => []
  | fuel + 1, start, chunkId =>
    if 0 < step ∧ start < tokens.length then
      let e := min (start + size) tokens.length
      let ctext := windowText enc tokens start e
      if (trim ctext).isEmpty then
        tokenLoopF size step enc tokens docId fuel (start + step) chunkId
      else
        { text := ctext, doc_id := docId, chunk_id := chunkId, start_idx := start,
          end_idx := e, token_count := e - start,
          metadata := [("strategy", "token_window")] } ::
          tokenLoopF size step enc tokens docId fuel (start + step) (chunkId + 1)
    else []

/-- Models `TextChunker.chunk_by_tokens` (chunker.py lines 207-241). -/
def chunk_by_tokens (size ov : Nat) (enc : Encoding) (text docId : List Char) :
    List Chunk :=
  tokenLoopF size (size - ov) enc (enc.encode text) docId
    ((enc.encode text).length + 1) 0 0

/-- Loop state of `chunk_by_sentences`: emitted chunks, next id, token
buffer, text-part buffer, and the approximate start-index tracker. -/
structure SentState where
  chunks : List Chunk
  chunk_id : Nat
  current_tokens : List Nat
  current_text_parts : List (List Char)
  current_start_idx : Nat
deriving Repr

/-- The chunk record built from the sentence buffer (lines 69-77, 116-124). -/
def mkSentChunk (docId : List Char) (st : SentState) : Chunk :=
  { text := trim st.current_text_parts.flatten
    doc_id := docId
    chunk_id := st.chunk_id
    start_idx := st.current_start_idx
    end_idx := st.current_start_idx + st.current_tokens.length
    token_count := st.current_tokens.length
    metadata := [("strategy", "sentence_aware")] }

/-- The backwards overlap walk of `chunk_by_sentences` (lines 89-97), run on
the reversed part list: keep taking parts while the running token total
stays within `chunk_overlap`, stopping at the first part that does not fit. -/
def overlapWalkRev (enc : Encoding) (ov : Nat) : Nat → List (List Char) → List (List Char)
  | _, [] => []
  | accSize, p :: rest =>
    if ov < accSize + (enc.encode p).length then []
    else p :: overlapWalkRev enc ov (accSize + (enc.encode p).length) rest

/-- Phase A of the overflow branch (lines 65-78): emit the buffer as a chunk
if it is non-empty. -/
def sentEmitStep (docId : List Char) (st : SentState) : SentState :=
  if st.current_tokens.isEmpty then st
  else { st with
          chunks := st.chunks ++ [mkSentChunk docId st],
          chunk_id := st.chunk_id + 1 }

/-- Phase B of the overflow branch (lines 80-107): rebuild the buffers from
the overlap walk and advance the approximate start index by the character
length of the last emitted chunk's text (or zero when there is none). -/
def sentResetStep (ov : Nat) (enc : Encoding) (st : SentState) : SentState :=
  let ovParts := (overlapWalkRev enc ov 0 st.current_text_parts.reverse).reverse
  { st with
    current_tokens := (ovParts.map enc.encode).flatten
    current_text_parts := ovParts
    current_start_idx := st.current_start_idx +
      (match st.chunks.getLast? with
       | some c => c.text.length
       | none => 0) }

/-- Step 3 (lines 109-111): append the sentence and its tokens to the
buffers, the sentence carrying the re-joining space. -/
def sentAppendStep (enc : Encoding) (st : SentState) (sentence : List Char) : SentState :=
  { st with
    current_tokens := st.current_tokens ++ enc.encode sentence
    current_text_parts := st.current_text_parts ++ [sentence ++ [' ']] }

/-- One iteration of the sentence loop of `chunk_by_sentences`
(lines 56-111): skip whitespace-only sentences; when the sentence would
overflow the buffer, emit the buffer (if non-empty) and rebuild it from the
overlap walk; then append the sentence unconditionally. -/
def sentStep (size ov : Nat) (enc : Encoding) (docId : List Char)
    (st : SentState) (sentence : List Char) : SentState :=
  if (trim sentence).isEmpty then st
  else if size < st.current_tokens.length + (enc.encode sentence).length then
    sentAppendStep enc (sentResetStep ov enc (sentEmitStep docId st)) sentence
  else
    sentAppendStep enc st sentence

/-- The sentence loop folded over the split sentences. -/
def sentLoop (size ov : Nat) (enc : Encoding) (docId : List Char)
    (st : SentState) : List (List Char) → SentState
  | [] => st
  | s :: rest => sentLoop size ov enc docId (sentStep size ov enc docId st s) rest

/-- Models `TextChunker.chunk_by_sentences` (chunker.py lines 36-126). -/
def chunk_by_sentences (size ov : Nat) (enc : Encoding) (text docId : List Char) :
    List Chunk :=
  let st := sentLoop size ov enc docId ⟨[], 0, [], [], 0⟩ (re_split_sentences text)
  if st.current_tokens.isEmpty then st.chunks
  else st.chunks ++ [mkSentChunk docId st]

/-- Models Python `"\n".join(parts)`. -/
def joinNL : List (List Char) → List Char
  | [] => []
  | [p] => p
  | p :: q :: rest => p ++ '\n' :: joinNL (q :: rest)

/-- Loop state of `chunk_group_strings`. -/
structure GroupState where
  chunks : List Chunk
  chunk_id : Nat
  current_tokens : List Nat
  current_text_parts : List (List Char)
  current_start_idx : Nat
deriving Repr

/-- The chunk record built from the record buffer (lines 152-160, 176-184,
194-202): newline-joined parts, the shared metadata copied in, and the
never-advanced approximate start tracker. -/
def mkGroupChunk (docId : List Char) (md : List (String × String))
    (st : GroupState) : Chunk :=
  { text := joinNL st.current_text_parts
    doc_id := docId
    chunk_id := st.chunk_id
    start_idx := st.current_start_idx
    end_idx := st.current_start_idx + st.current_tokens.length
    token_count := st.current_tokens.length
    metadata := md }

/-- The buffer flush of `chunk_group_strings` (lines 152-163 and 176-188):
emit the newline-joined buffer as a chunk and clear the buffers. -/
def groupFlushRaw (docId : List Char) (md : List (String × String))
    (st : GroupState) : GroupState :=
  { st with
    chunks := st.chunks ++ [mkGroupChunk docId md st],
    chunk_id := st.chunk_id + 1,
    current_tokens := [],
    current_text_parts := [] }

/-- The oversized-record delegation (lines 165-171): run `chunk_by_tokens`
over the single record, re-number the sub-chunks to continue the document's
sequence and overwrite their metadata with a copy of the shared map. -/
def groupFallback (size ov : Nat) (enc : Encoding) (docId : List Char)
    (md : List (String × String)) (st : GroupState) (part : List Char) : GroupState :=
  let subs := chunk_by_tokens size ov enc part docId
  { st with
    chunks := st.chunks ++ subs.enum.map (fun ic =>
      { ic.2 with chunk_id := st.chunk_id + ic.1, metadata := md })
    chunk_id := st.chunk_id + subs.length }

/-- Appending a record to the buffers (lines 189-190). -/
def groupAppend (enc : Encoding) (st : GroupState) (part : List Char) : GroupState :=
  { st with
    current_tokens := st.current_tokens ++ enc.encode part
    current_text_parts := st.current_text_parts ++ [part] }

/-- One iteration of the record loop of `chunk_group_strings`
(lines 140-190): skip whitespace-only records; delegate an oversized record
to `chunk_by_tokens` after flushing the buffer (if non-empty); otherwise
flush the buffer when the record would overflow it, then append the record. -/
def groupStep (size ov : Nat) (enc : Encoding) (docId : List Char)
    (md : List (String × String)) (st : GroupState) (part : List Char) : GroupState :=
  if (trim part).isEmpty then st
  else if size < (enc.encode part).length then
    groupFallback size ov enc docId md
      (if st.current_tokens.isEmpty then st else groupFlushRaw docId md st) part
  else if size < st.current_tokens.length + (enc.encode part).length then
    groupAppend enc (groupFlushRaw docId md st) part
  else
    groupAppend enc st part

/-- The record loop folded over the record list. -/
def groupLoop (size ov : Nat) (enc : Encoding) (docId : List Char)
    (md : List (String × String)) (st : GroupState) : List (List Char) → GroupState
  | [] => st
  | p :: rest => groupLoop size ov enc docId md (groupStep size ov enc docId md st p) rest

/-- The final buffer flush of `chunk_group_strings` (lines 192-202). -/
def groupFinal (docId : List Char) (md : List (String × String))
    (st : GroupState) : List Chunk :=
  if st.current_tokens.isEmpty then st.chunks
  else st.chunks ++ [mkGroupChunk docId md st]

/-- Models `TextChunker.chunk_group_strings` (chunker.py lines 129-204). -/
def chunk_group_strings (size ov : Nat) (enc : Encoding) (parts : List (List Char))
    (docId : List Char) (md : List (String × String)) : List Chunk :=
  groupFinal docId md (groupLoop size ov enc docId md ⟨[], 0, [], [], 0⟩ parts)

/-- Characters of a string literal (for concrete instances). -/
def str (s : String) : List Char := s.data

/-- The input units a chunking loop actually processes: whitespace-only
units are discarded (`if not s.strip(): continue`). -/
def filterUnits (l : List (List Char)) : List (List Char) :=
  l.filter (fun s => !(trim s).isEmpty)

/-- The sentence units actually processed by `chunk_by_sentences`: the regex
split with whitespace-only units discarded. -/
def sentUnits (text : List Char) : List (List Char) :=
  filterUnits (re_split_sentences text)

/-- The largest token count among a list of units. -/
def maxTokOf (enc : Encoding) (units : List (List Char)) : Nat :=
  (units.map (fun s => (enc.encode s).length)).foldr max 0

/-- The largest token count of any processed sentence unit ("one sentence's
length" in the size-bound policy). -/
def maxSentTokens (enc : Encoding) (text : List Char) : Nat :=
  maxTokOf enc (sentUnits text)

/-- `c` is (up to the re-assigned `chunk_id` and metadata) one of the
fallback sub-chunks that `chunk_group_strings` produces by delegating an
oversized record to `chunk_by_tokens` (lines 149-172). -/
def FallbackSub (size ov : Nat) (enc : Encoding) (parts : List (List Char))
    (docId : List Char) (md : List (String × String)) (c : Chunk) : Prop :=
  ∃ p ∈ parts, size < (enc.encode p).length ∧
    ∃ c' ∈ chunk_by_tokens size ov enc p docId,
      c.text = c'.text ∧ c.start_idx = c'.start_idx ∧ c.end_idx = c'.end_idx ∧
      c.token_count = c'.token_count ∧ c.metadata = md

/-- Invariant of the sentence loop, relative to the full processed unit list
`units` and the units `procU` consumed so far: the emitted chunks carry
contiguous ids, the sentence-aware strategy stamp, positive token counts,
non-blank text that is a whole-sentence run of `units`, and the size bound;
the text buffer is a suffix of the consumed units (each carrying the
re-joining space) and the token buffer respects the same size bound. -/
def SInvP (size : Nat) (enc : Encoding) (units procU : List (List Char))
    (st : SentState) : Prop :=
  (st.chunks.map Chunk.chunk_id = List.range st.chunk_id) ∧
  (st.chunks.length = st.chunk_id) ∧
  (∀ c ∈ st.chunks,
    c.metadata = [("strategy", "sentence_aware")] ∧
    0 < c.token_count ∧
    trim c.text ≠ [] ∧
    c.token_count ≤ size + maxTokOf enc units ∧
    (∃ run, run <:+: units ∧
      c.text = trim ((run.map (fun s => s ++ [' '])).flatten))) ∧
  (∃ σ, σ <:+ procU ∧ st.current_text_parts = σ.map (fun s => s ++ [' '])) ∧
  (st.current_tokens.length ≤ size + maxTokOf enc units) ∧
  (st.current_text_parts = [] → st.current_tokens = [])

/-- Invariant of the record loop of `chunk_group_strings`: emitted chunks
carry contiguous ids, a copy of the shared metadata, positive token counts
and non-blank text, and are either buffer chunks (whose offsets start at the
never-advanced zero tracker) or fallback sub-chunks of an oversized record;
the token buffer is the concatenated encoding of the non-blank text buffer. -/
def GInvP (size ov : Nat) (enc : Encoding) (docId : List Char)
    (md : List (String × String)) (allParts : List (List Char))
    (st : GroupState) : Prop :=
  (st.chunks.map Chunk.chunk_id = List.range st.chunk_id) ∧
  (st.chunks.length = st.chunk_id) ∧
  (∀ c ∈ st.chunks,
    c.metadata = md ∧ 0 < c.token_count ∧ trim c.text ≠ [] ∧
    ((c.start_idx = 0 ∧ c.end_idx = c.token_count) ∨
      FallbackSub size ov enc allParts docId md c)) ∧
  (st.current_tokens = (st.current_text_parts.map enc.encode).flatten) ∧
  (∀ p ∈ st.current_text_parts, trim p ≠ []) ∧
  (st.current_start_idx = 0)

/-! ### Basic lemmas about the string primitives -/

theorem pyStrip_head?_not (p : Char → Bool) (l : List Char) :
    ∀ a ∈ (pyStrip p l).head?, p a = false := by
  intro a ha
  unfold pyStrip at ha
  rw [List.head?_reverse] at ha
  rcases hm : ((l.dropWhile p).reverse.dropWhile p) with _ | ⟨x, xs⟩
  · simp [hm] at ha
  · have hne : (l.dropWhile p).reverse.dropWhile p ≠ [] := by simp [hm]
    have hsuf : (l.dropWhile p).reverse.dropWhile p <:+ (l.dropWhile p).reverse :=
      List.dropWhile_suffix p
    obtain ⟨t, ht⟩ := hsuf
    have h2 : ((l.dropWhile p).reverse).getLast? = some a := by
      rw [← ht]
      rw [List.getLast?_append_of_ne_nil]
      · exact ha
      · exact hne
    rw [List.getLast?_reverse] at h2
    have := List.head?_dropWhile_not p l
    rw [h2] at this
    exact this

theorem pyStrip_getLast?_not (p : Char → Bool) (l : List Char) :
    ∀ a ∈ (pyStrip p l).getLast?, p a = false := by
  intro a ha
  unfold pyStrip at ha
  rw [List.getLast?_reverse] at ha
  have := List.head?_dropWhile_not p (l.dropWhile p).reverse
  rw [ha] at this
  exact this

theorem pyStrip_eq_nil_imp (p : Char → Bool) (l : List Char)
    (h : pyStrip p l = []) : ∀ a ∈ l, p a = true := by
  intro a ha
  unfold pyStrip at h
  rw [List.reverse_eq_nil_iff, List.dropWhile_eq_nil_iff] at h
  have h' : ∀ x ∈ l.dropWhile p, p x = true := by
    intro x hx
    exact h x (by simpa using hx)
  rcases (List.mem_append.mp
    (by rw [List.takeWhile_append_dropWhile] ; exact ha :
      a ∈ l.takeWhile p ++ l.dropWhile p)) with hA | hB
  · exact List.mem_takeWhile_imp hA
  · exact h' a hB

theorem pyStrip_ne_nil (p : Char → Bool) (l : List Char) (a : Char)
    (ha : a ∈ l) (hpa : p a = false) : pyStrip p l ≠ [] := by
  intro hnil
  have := pyStrip_eq_nil_imp p l hnil a ha
  rw [this] at hpa
  exact Bool.noConfusion hpa

theorem pyStrip_subset (p : Char → Bool) (l : List Char) :
    pyStrip p l ⊆ l := by
  unfold pyStrip
  intro a ha
  rw [List.mem_reverse] at ha
  have h1 := List.dropWhile_subset (l := (l.dropWhile p).reverse) p ha
  rw [List.mem_reverse] at h1
  exact List.dropWhile_subset p h1

theorem trim_ne_nil_of_mem (l : List Char) (a : Char) (ha : a ∈ l)
    (hpa : a.isWhitespace = false) : trim l ≠ [] :=
  pyStrip_ne_nil Char.isWhitespace l a ha hpa

theorem trim_trim_ne_nil (l : List Char) (h : trim l ≠ []) : trim (trim l) ≠ [] := by
  rcases hm : (trim l).head? with _ | ⟨a⟩
  · rw [List.head?_eq_none_iff] at hm
    exact absurd hm h
  · have hmem : a ∈ trim l := List.mem_of_mem_head? (by rw [hm]; rfl)
    exact trim_ne_nil_of_mem _ a hmem (pyStrip_head?_not Char.isWhitespace l a hm)

theorem exists_not_ws_of_trim_ne_nil (l : List Char) (h : trim l ≠ []) :
    ∃ a ∈ l, a.isWhitespace = false := by
  by_contra hall
  push_neg at hall
  apply h
  unfold trim pyStrip
  rw [List.reverse_eq_nil_iff, List.dropWhile_eq_nil_iff]
  intro x hx
  rw [List.mem_reverse] at hx
  have hxl : x ∈ l := List.dropWhile_subset _ hx
  simpa using hall x hxl

/-! ### List utilities -/

theorem le_foldr_max_of_mem {a : Nat} : ∀ {l : List Nat}, a ∈ l → a ≤ l.foldr max 0 := by
  intro l
  induction l with
  | nil => intro h; cases h
  | cons x xs ih =>
    intro h
    rcases List.mem_cons.mp h with rfl | hx
    · exact Nat.le_max_left _ _
    · exact Nat.le_trans (ih hx) (Nat.le_max_right _ _)

theorem maxTokOf_ge (enc : Encoding) (units : List (List Char)) (s : List Char)
    (hs : s ∈ units) : (enc.encode s).length ≤ maxTokOf enc units := by
  unfold maxTokOf
  exact le_foldr_max_of_mem (List.mem_map_of_mem _ hs)

theorem suffix_map_split {σ : List (List Char)} {f : List Char → List Char}
    {l : List (List Char)} (h : l <:+ σ.map f) :
    ∃ τ, τ <:+ σ ∧ l = τ.map f := by
  obtain ⟨t, ht⟩ := h
  refine ⟨σ.drop t.length, List.drop_suffix _ _, ?_⟩
  rw [List.map_drop, ← ht, List.drop_left]

theorem suffix_append_singleton {σ l : List (List Char)} (a : List Char)
    (h : σ <:+ l) : σ ++ [a] <:+ l ++ [a] := by
  obtain ⟨t, ht⟩ := h
  exact ⟨t, by rw [← List.append_assoc, ht]⟩

theorem infix_of_suffix_of_pre {σ pro all : List (List Char)}
    (h1 : σ <:+ pro) (h2 : pro <+: all) : σ <:+: all := by
  obtain ⟨t, ht⟩ := h1
  obtain ⟨u, hu⟩ := h2
  exact ⟨t, u, by rw [← hu, ← ht, List.append_assoc]⟩

theorem mem_joinNL {p : List Char} : ∀ {parts : List (List Char)}, p ∈ parts →
    p <:+: joinNL parts := by
  intro parts
  induction parts with
  | nil => intro h; cases h
  | cons q rest ih =>
    intro h
    rcases List.mem_cons.mp h with rfl | hx
    · rcases rest with _ | ⟨r, rs⟩
      · exact ⟨[], [], by simp [joinNL]⟩
      · exact ⟨[], '\n' :: joinNL (r :: rs), by simp [joinNL]⟩
    · rcases rest with _ | ⟨r, rs⟩
      · cases hx
      · obtain ⟨s, t, hst⟩ := ih hx
        exact ⟨q ++ '\n' :: s, t, by simp [joinNL, ← hst]⟩

theorem joinNL_has_not_ws {parts : List (List Char)} {p : List Char}
    (hp : p ∈ parts) (hne : trim p ≠ []) : trim (joinNL parts) ≠ [] := by
  obtain ⟨a, ha, haw⟩ := exists_not_ws_of_trim_ne_nil p hne
  obtain ⟨s, t, hst⟩ := mem_joinNL hp
  refine trim_ne_nil_of_mem _ a ?_ haw
  rw [← hst]
  simp [ha]

theorem overlapWalkRev_sum (enc : Encoding) (ov : Nat) :
    ∀ (l : List (List Char)) (acc : Nat), acc ≤ ov →
      acc + ((overlapWalkRev enc ov acc l).map (fun p => (enc.encode p).length)).sum ≤ ov := by
  intro l
  induction l with
  | nil => intro acc h; simpa [overlapWalkRev] using h
  | cons p rest ih =>
    intro acc h
    unfold overlapWalkRev
    split
    · simpa using h
    · rename_i hle
      simp only [List.map_cons, List.sum_cons]
      have := ih (acc + (enc.encode p).length) (by omega)
      omega

theorem overlapWalkRev_isPre (enc : Encoding) (ov : Nat) :
    ∀ (l : List (List Char)) (acc : Nat), overlapWalkRev enc ov acc l <+: l := by
  intro l
  induction l with
  | nil => intro acc; exact ⟨[], rfl⟩
  | cons p rest ih =>
    intro acc
    unfold overlapWalkRev
    split
    · exact ⟨p :: rest, rfl⟩
    · obtain ⟨t, ht⟩ := ih (acc + (enc.encode p).length)
      exact ⟨t, by simp [ht]⟩

theorem overlapWalk_suffix (enc : Encoding) (ov : Nat) (parts : List (List Char)) :
    (overlapWalkRev enc ov 0 parts.reverse).reverse <:+ parts := by
  have h := overlapWalkRev_isPre enc ov parts.reverse 0
  have := List.reverse_suffix.mpr h
  simpa using this

theorem overlapWalk_len_le (enc : Encoding) (ov : Nat) (parts : List (List Char)) :
    (((overlapWalkRev enc ov 0 parts.reverse).reverse.map enc.encode).flatten).length ≤ ov := by
  rw [List.length_flatten]
  have h := overlapWalkRev_sum enc ov parts.reverse 0 (Nat.zero_le _)
  simp only [Nat.zero_add] at h
  calc ((((overlapWalkRev enc ov 0 parts.reverse).reverse.map enc.encode).map
        List.length).sum)
      = (((overlapWalkRev enc ov 0 parts.reverse).reverse).map
        (fun p => (enc.encode p).length)).sum := by rw [List.map_map]; rfl
    _ = (((overlapWalkRev enc ov 0 parts.reverse).map
        (fun p => (enc.encode p).length)).reverse).sum := by rw [List.map_reverse]
    _ = ((overlapWalkRev enc ov 0 parts.reverse).map
        (fun p => (enc.encode p).length)).sum := List.sum_reverse _
    _ ≤ ov := h

/-! ### The sliding-window loop -/

theorem tokenLoop_stop (size step : Nat) (enc : Encoding) (tokens : List Nat)
    (docId : List Char) (start chunkId : Nat)
    (h : ¬(0 < step ∧ start < tokens.length)) :
    tokenLoop size step enc tokens docId start chunkId = [] := by
  unfold tokenLoop
  rw [dif_neg h]

theorem tokenLoop_go (size step : Nat) (enc : Encoding) (tokens : List Nat)
    (docId : List Char) (start chunkId : Nat)
    (h : 0 < step ∧ start < tokens.length) :
    tokenLoop size step enc tokens docId start chunkId =
      (if (trim (windowText enc tokens start (min (start + size) tokens.length))).isEmpty then
        tokenLoop size step enc tokens docId (start + step) chunkId
      else
        { text := windowText enc tokens start (min (start + size) tokens.length),
          doc_id := docId, chunk_id := chunkId, start_idx := start,
          end_idx := min (start + size) tokens.length,
          token_count := min (start + size) tokens.length - start,
          metadata := [("strategy", "token_window")] } ::
          tokenLoop size step enc tokens docId (start + step) (chunkId + 1)) := by
  conv_lhs => unfold tokenLoop
  rw [dif_pos h]

theorem tokenLoopF_eq (size step : Nat) (enc : Encoding) (tokens : List Nat)
    (docId : List Char) :
    ∀ (fuel start chunkId : Nat), tokens.length - start < fuel →
      tokenLoopF size step enc tokens docId fuel start chunkId =
        tokenLoop size step enc tokens docId start chunkId := by
  intro fuel
  induction fuel with
  | zero => intro start chunkId h; omega
  | succ fuel ih =>
    intro start chunkId h
    by_cases hc : 0 < step ∧ start < tokens.length
    · rw [tokenLoop_go _ _ _ _ _ _ _ hc]
      show (if 0 < step ∧ start < tokens.length then _ else _) = _
      rw [if_pos hc]
      have h1 := ih (start + step) chunkId (by omega)
      have h2 := ih (start + step) (chunkId + 1) (by omega)
      by_cases hemp :
          (trim (windowText enc tokens start (min (start + size) tokens.length))).isEmpty
      · rw [if_pos hemp, if_pos hemp]
        exact h1
      · rw [if_neg hemp, if_neg hemp, h2]
    · rw [tokenLoop_stop _ _ _ _ _ _ _ hc]
      show (if 0 < step ∧ start < tokens.length then _ else _) = _
      rw [if_neg hc]

theorem chunk_by_tokens_eq_loop (size ov : Nat) (enc : Encoding)
    (text docId : List Char) :
    chunk_by_tokens size ov enc text docId =
      tokenLoop size (size - ov) enc (enc.encode text) docId 0 0 :=
  tokenLoopF_eq size (size - ov) enc (enc.encode text) docId _ 0 0 (by omega)

theorem tokenLoop_rec (size step : Nat) (enc : Encoding) (tokens : List Nat)
    (motive : Nat → Nat → Prop)
    (stop : ∀ start chunkId, ¬(0 < step ∧ start < tokens.length) → motive start chunkId)
    (go : ∀ start chunkId, (0 < step ∧ start < tokens.length) →
      (∀ j, motive (start + step) j) → motive start chunkId) :
    ∀ start chunkId, motive start chunkId := by
  have key : ∀ n start, tokens.length - start ≤ n → ∀ chunkId, motive start chunkId := by
    intro n
    induction n with
    | zero =>
      intro start h chunkId
      by_cases hc : 0 < step ∧ start < tokens.length
      · omega
      · exact stop start chunkId hc
    | succ n ih =>
      intro start h chunkId
      by_cases hc : 0 < step ∧ start < tokens.length
      · exact go start chunkId hc (fun j => ih (start + step) (by omega) j)
      · exact stop start chunkId hc
  intro start chunkId
  exact key (tokens.length - start) start (Nat.le_refl _) chunkId

/-- Membership facts about every chunk the window loop emits: field
relationships, the size bound, the window lattice of start offsets, and the
non-emptiness guards. -/
theorem tokenLoop_mem (size step : Nat) (enc : Encoding) (tokens : List Nat)
    (docId : List Char) (start chunkId : Nat) :
    ∀ c ∈ tokenLoop size step enc tokens docId start chunkId,
      c.metadata = [("strategy", "token_window")] ∧
      c.doc_id = docId ∧
      c.end_idx = min (c.start_idx + size) tokens.length ∧
      c.token_count = c.end_idx - c.start_idx ∧
      c.token_count ≤ size ∧
      c.text = windowText enc tokens c.start_idx c.end_idx ∧
      (trim c.text).isEmpty = false ∧
      c.start_idx < tokens.length ∧
      (∃ k, c.start_idx = start + k * step) := by
  refine tokenLoop_rec size step enc tokens
    (motive := fun start chunkId =>
      ∀ c ∈ tokenLoop size step enc tokens docId start chunkId,
        c.metadata = [("strategy", "token_window")] ∧
        c.doc_id = docId ∧
        c.end_idx = min (c.start_idx + size) tokens.length ∧
        c.token_count = c.end_idx - c.start_idx ∧
        c.token_count ≤ size ∧
        c.text = windowText enc tokens c.start_idx c.end_idx ∧
        (trim c.text).isEmpty = false ∧
        c.start_idx < tokens.length ∧
        (∃ k, c.start_idx = start + k * step)) ?_ ?_ start chunkId
  · intro start chunkId h c hc
    rw [tokenLoop_stop _ _ _ _ _ _ _ h] at hc
    cases hc
  · intro start chunkId h ih c hc
    rw [tokenLoop_go _ _ _ _ _ _ _ h] at hc
    by_cases hemp : (trim (windowText enc tokens start (min (start + size) tokens.length))).isEmpty
    · rw [if_pos hemp] at hc
      obtain ⟨h1, h2, h3, h4, h5, h6, h7, h8, k, hk⟩ := ih chunkId c hc
      exact ⟨h1, h2, h3, h4, h5, h6, h7, h8, k + 1, by rw [Nat.succ_mul]; omega⟩
    · rw [if_neg hemp] at hc
      rcases List.mem_cons.mp hc with rfl | hc'
      · exact ⟨rfl, rfl, rfl, rfl, by simp only []; omega, rfl,
          Bool.of_not_eq_true hemp, h.2, 0, by simp⟩
      · obtain ⟨h1, h2, h3, h4, h5, h6, h7, h8, k, hk⟩ := ih (chunkId + 1) c hc'
        exact ⟨h1, h2, h3, h4, h5, h6, h7, h8, k + 1, by rw [Nat.succ_mul]; omega⟩

/-- The `chunk_id`s assigned by the window loop continue the running counter
contiguously: they are `chunkId, chunkId+1, ...`. -/
theorem tokenLoop_ids (size step : Nat) (enc : Encoding) (tokens : List Nat)
    (docId : List Char) (start chunkId : Nat) :
    (tokenLoop size step enc tokens docId start chunkId).map Chunk.chunk_id =
      List.range' chunkId (tokenLoop size step enc tokens docId start chunkId).length := by
  refine tokenLoop_rec size step enc tokens
    (motive := fun start chunkId =>
      (tokenLoop size step enc tokens docId start chunkId).map Chunk.chunk_id =
        List.range' chunkId (tokenLoop size step enc tokens docId start chunkId).length)
    ?_ ?_ start chunkId
  · intro start chunkId h
    rw [tokenLoop_stop _ _ _ _ _ _ _ h]
    rfl
  · intro start chunkId h ih
    rw [tokenLoop_go _ _ _ _ _ _ _ h]
    by_cases hemp : (trim (windowText enc tokens start (min (start + size) tokens.length))).isEmpty
    · rw [if_pos hemp]
      exact ih chunkId
    · rw [if_neg hemp]
      rw [List.map_cons, List.length_cons, List.range'_succ]
      rw [ih (chunkId + 1)]

/-- Successive chunks emitted by the window loop have start offsets that
differ by a positive multiple of the step. -/
theorem tokenLoop_chain (size step : Nat) (enc : Encoding) (tokens : List Nat)
    (docId : List Char) (start chunkId : Nat) :
    List.Chain' (fun a b => ∃ k, 0 < k ∧ b.start_idx = a.start_idx + k * step)
      (tokenLoop size step enc tokens docId start chunkId) := by
  refine tokenLoop_rec size step enc tokens
    (motive := fun start chunkId =>
      List.Chain' (fun a b => ∃ k, 0 < k ∧ b.start_idx = a.start_idx + k * step)
        (tokenLoop size step enc tokens docId start chunkId))
    ?_ ?_ start chunkId
  · intro start chunkId h
    rw [tokenLoop_stop _ _ _ _ _ _ _ h]
    exact List.chain'_nil
  · intro start chunkId h ih
    rw [tokenLoop_go _ _ _ _ _ _ _ h]
    by_cases hemp : (trim (windowText enc tokens start (min (start + size) tokens.length))).isEmpty
    · rw [if_pos hemp]
      exact ih chunkId
    · rw [if_neg hemp]
      rw [List.chain'_cons']
      constructor
      · intro y hy
        have hymem : y ∈ tokenLoop size step enc tokens docId (start + step) (chunkId + 1) :=
          List.mem_of_mem_head? hy
        obtain ⟨_, _, _, _, _, _, _, _, k, hk⟩ :=
          tokenLoop_mem size step enc tokens docId (start + step) (chunkId + 1) y hymem
        exact ⟨k + 1, Nat.succ_pos k, by simp only []; rw [Nat.succ_mul]; omega⟩
      · exact ih (chunkId + 1)

/-- Every token position at or after `start` is inside some window of the
loop; it is covered by an emitted chunk unless the window that covers it
decoded to whitespace-only text and was dropped. -/
theorem tokenLoop_cover (size step : Nat) (enc : Encoding) (tokens : List Nat)
    (docId : List Char) (hstep : 0 < step) (hss : step ≤ size) :
    ∀ start chunkId, ∀ i, start ≤ i → i < tokens.length →
      (∃ c ∈ tokenLoop size step enc tokens docId start chunkId,
        c.start_idx ≤ i ∧ i < c.end_idx) ∨
      (∃ s, (∃ k, s = start + k * step) ∧ s ≤ i ∧ i < min (s + size) tokens.length ∧
        (trim (windowText enc tokens s (min (s + size) tokens.length))).isEmpty = true) := by
  intro start chunkId
  refine tokenLoop_rec size step enc tokens
    (motive := fun start chunkId => ∀ i, start ≤ i → i < tokens.length →
      (∃ c ∈ tokenLoop size step enc tokens docId start chunkId,
        c.start_idx ≤ i ∧ i < c.end_idx) ∨
      (∃ s, (∃ k, s = start + k * step) ∧ s ≤ i ∧ i < min (s + size) tokens.length ∧
        (trim (windowText enc tokens s (min (s + size) tokens.length))).isEmpty = true))
    ?_ ?_ start chunkId
  · intro start chunkId h i hsi hilen
    exfalso
    omega
  · intro start chunkId h ih i hsi hilen
    by_cases hie : i < min (start + size) tokens.length
    · by_cases hemp : (trim (windowText enc tokens start (min (start + size) tokens.length))).isEmpty
      · right
        exact ⟨start, ⟨0, by omega⟩, hsi, hie, hemp⟩
      · left
        rw [tokenLoop_go _ _ _ _ _ _ _ h, if_neg hemp]
        refine ⟨_, List.mem_cons_self _ _, hsi, ?_⟩
        exact hie
    · have hnext : start + step ≤ i := by omega
      by_cases hemp : (trim (windowText enc tokens start (min (start + size) tokens.length))).isEmpty
      · rcases ih chunkId i hnext hilen with ⟨c, hc, hci⟩ | ⟨s, ⟨k, hk⟩, hrest⟩
        · left
          rw [tokenLoop_go _ _ _ _ _ _ _ h, if_pos hemp]
          exact ⟨c, hc, hci⟩
        · right
          exact ⟨s, ⟨k + 1, by rw [Nat.succ_mul]; omega⟩, hrest⟩
      · rcases ih (chunkId + 1) i hnext hilen with ⟨c, hc, hci⟩ | ⟨s, ⟨k, hk⟩, hrest⟩
        · left
          rw [tokenLoop_go _ _ _ _ _ _ _ h, if_neg hemp]
          exact ⟨c, List.mem_cons_of_mem _ hc, hci⟩
        · right
          exact ⟨s, ⟨k + 1, by rw [Nat.succ_mul]; omega⟩, hrest⟩

/-! ### The sentence loop -/

theorem isEmpty_false_ne_nil {α : Type} {l : List α} (h : l.isEmpty = false) : l ≠ [] := by
  cases l with
  | nil => cases h
  | cons a t => exact List.cons_ne_nil a t

theorem mkSentChunk_good (size : Nat) (enc : Encoding) (units procU : List (List Char))
    (docId : List Char) (st : SentState)
    (hU : ∀ s ∈ units, trim s ≠ [])
    (hpre : procU <+: units)
    (hσ : ∃ σ, σ <:+ procU ∧ st.current_text_parts = σ.map (fun s => s ++ [' ']))
    (hlen : st.current_tokens.length ≤ size + maxTokOf enc units)
    (himp : st.current_text_parts = [] → st.current_tokens = [])
    (hne : st.current_tokens ≠ []) :
    (mkSentChunk docId st).metadata = [("strategy", "sentence_aware")] ∧
    0 < (mkSentChunk docId st).token_count ∧
    trim (mkSentChunk docId st).text ≠ [] ∧
    (mkSentChunk docId st).token_count ≤ size + maxTokOf enc units ∧
    (∃ run, run <:+: units ∧
      (mkSentChunk docId st).text = trim ((run.map (fun s => s ++ [' '])).flatten)) := by
  obtain ⟨σ, hsuf, hparts⟩ := hσ
  have hpne : st.current_text_parts ≠ [] := by
    intro h0
    exact hne (himp h0)
  have hσne : σ ≠ [] := by
    intro h0
    rw [h0] at hparts
    exact hpne hparts
  obtain ⟨s₀, σ', rfl⟩ := List.exists_cons_of_ne_nil hσne
  have hs₀procU : s₀ ∈ procU := List.IsSuffix.mem (List.mem_cons_self _ _) hsuf
  have hs₀units : s₀ ∈ units := by
    obtain ⟨t, ht⟩ := hpre
    rw [← ht]
    exact List.mem_append_left t hs₀procU
  obtain ⟨a, ha, haw⟩ := exists_not_ws_of_trim_ne_nil s₀ (hU s₀ hs₀units)
  have haflat : a ∈ st.current_text_parts.flatten := by
    rw [List.mem_flatten]
    refine ⟨s₀ ++ [' '], ?_, List.mem_append_left _ ha⟩
    rw [hparts]
    exact List.mem_map_of_mem _ (List.mem_cons_self _ _)
  refine ⟨rfl, ?_, ?_, hlen, ⟨s₀ :: σ', infix_of_suffix_of_pre hsuf hpre, ?_⟩⟩
  · exact List.length_pos.mpr hne
  · exact trim_trim_ne_nil _ (trim_ne_nil_of_mem _ a haflat haw)
  · show trim st.current_text_parts.flatten = _
    rw [hparts]

theorem sentEmit_inv (size : Nat) (enc : Encoding) (units procU : List (List Char))
    (docId : List Char) (st : SentState)
    (hU : ∀ s ∈ units, trim s ≠ [])
    (hpre : procU <+: units)
    (h : SInvP size enc units procU st) :
    SInvP size enc units procU (sentEmitStep docId st) := by
  unfold sentEmitStep
  by_cases he : st.current_tokens.isEmpty
  · rw [if_pos he]
    exact h
  · rw [if_neg he]
    obtain ⟨h1, h2, h3, h4, h5, h6⟩ := h
    have hne : st.current_tokens ≠ [] :=
      isEmpty_false_ne_nil (Bool.of_not_eq_true he)
    refine ⟨?_, ?_, ?_, h4, h5, h6⟩
    · show (st.chunks ++ [mkSentChunk docId st]).map Chunk.chunk_id =
        List.range (st.chunk_id + 1)
      rw [List.map_append, h1, List.range_succ]
      rfl
    · show (st.chunks ++ [mkSentChunk docId st]).length = st.chunk_id + 1
      rw [List.length_append, h2]
      rfl
    · intro c hc
      rcases List.mem_append.mp hc with hold | hnew
      · exact h3 c hold
      · rw [List.mem_singleton] at hnew
      
        subst hnew
        exact mkSentChunk_good size enc units procU docId st hU hpre h4 h5 h6 hne

theorem sentReset_inv (size ov : Nat) (enc : Encoding) (units procU : List (List Char))
    (st : SentState) (hov : ov ≤ size)
    (h : SInvP size enc units procU st) :
    SInvP size enc units procU (sentResetStep ov enc st) := by
  obtain ⟨h1, h2, h3, h4, h5, h6⟩ := h
  obtain ⟨σ, hsuf, hparts⟩ := h4
  have hWsuf : (overlapWalkRev enc ov 0 st.current_text_parts.reverse).reverse <:+
      σ.map (fun s => s ++ [' ']) := by
    rw [← hparts]
    exact overlapWalk_suffix enc ov st.current_text_parts
  obtain ⟨τ, hτ, hW⟩ := suffix_map_split hWsuf
  refine ⟨h1, h2, h3, ⟨τ, List.IsSuffix.trans hτ hsuf, ?_⟩, ?_, ?_⟩
  · show (overlapWalkRev enc ov 0 st.current_text_parts.reverse).reverse = _
    exact hW
  · show ((((overlapWalkRev enc ov 0 st.current_text_parts.reverse).reverse).map
      enc.encode).flatten).length ≤ size + maxTokOf enc units
    exact Nat.le_trans (overlapWalk_len_le enc ov st.current_text_parts)
      (Nat.le_trans hov (Nat.le_add_right _ _))
  · intro h0
    show (((overlapWalkRev enc ov 0 st.current_text_parts.reverse).reverse).map
      enc.encode).flatten = []
    have h0' : (overlapWalkRev enc ov 0 st.current_text_parts.reverse).reverse = [] := h0
    rw [h0']
    rfl

theorem sentAppend_inv (size : Nat) (enc : Encoding) (units procU : List (List Char))
    (st : SentState) (s : List Char)
    (h : SInvP size enc units procU st)
    (hlen : st.current_tokens.length + (enc.encode s).length ≤ size + maxTokOf enc units) :
    SInvP size enc units (procU ++ [s]) (sentAppendStep enc st s) := by
  obtain ⟨h1, h2, h3, h4, h5, h6⟩ := h
  obtain ⟨σ, hsuf, hparts⟩ := h4
  refine ⟨h1, h2, h3, ⟨σ ++ [s], suffix_append_singleton s hsuf, ?_⟩, ?_, ?_⟩
  · show st.current_text_parts ++ [s ++ [' ']] = _
    rw [hparts, List.map_append]
    rfl
  · show (st.current_tokens ++ enc.encode s).length ≤ size + maxTokOf enc units
    rw [List.length_append]
    exact hlen
  · intro h0
    exact absurd (List.append_eq_nil.mp h0).2 (List.cons_ne_nil _ _)

theorem sentStep_skip (size ov : Nat) (enc : Encoding) (docId : List Char)
    (st : SentState) (s : List Char) (htr : (trim s).isEmpty = true) :
    sentStep size ov enc docId st s = st := by
  unfold sentStep
  rw [if_pos htr]

theorem sentReset_len (ov : Nat) (enc : Encoding) (st : SentState) :
    (sentResetStep ov enc st).current_tokens.length ≤ ov := by
  show ((((overlapWalkRev enc ov 0 st.current_text_parts.reverse).reverse).map
    enc.encode).flatten).length ≤ ov
  exact overlapWalk_len_le enc ov st.current_text_parts

theorem sentStepKeep_inv (size ov : Nat) (enc : Encoding)
    (units procU : List (List Char)) (docId : List Char)
    (st : SentState) (s : List Char)
    (hov : ov < size)
    (hU : ∀ u ∈ units, trim u ≠ [])
    (htr : ¬((trim s).isEmpty = true))
    (hsU : s ∈ units)
    (hpre : procU ++ [s] <+: units)
    (h : SInvP size enc units procU st) :
    SInvP size enc units (procU ++ [s]) (sentStep size ov enc docId st s) := by
  have hpre0 : procU <+: units := by
    obtain ⟨t, ht⟩ := hpre
    exact ⟨[s] ++ t, by rw [← List.append_assoc, ht]⟩
  have hsmax : (enc.encode s).length ≤ maxTokOf enc units := maxTokOf_ge enc units s hsU
  unfold sentStep
  rw [if_neg htr]
  by_cases hovf : size < st.current_tokens.length + (enc.encode s).length
  · rw [if_pos hovf]
    have hE := sentEmit_inv size enc units procU docId st hU hpre0 h
    have hR := sentReset_inv size ov enc units procU (sentEmitStep docId st)
      (Nat.le_of_lt hov) hE
    refine sentAppend_inv size enc units procU _ s hR ?_
    have hlen := sentReset_len ov enc (sentEmitStep docId st)
    omega
  · rw [if_neg hovf]
    refine sentAppend_inv size enc units procU st s h ?_
    omega

theorem sentLoop_inv (size ov : Nat) (enc : Encoding)
    (units : List (List Char)) (docId : List Char)
    (hov : ov < size)
    (hU : ∀ u ∈ units, trim u ≠ []) :
    ∀ (rem procU : List (List Char)) (st : SentState),
      procU ++ filterUnits rem = units →
      SInvP size enc units procU st →
      SInvP size enc units units (sentLoop size ov enc docId st rem) := by
  intro rem
  induction rem with
  | nil =>
    intro procU st heq h
    have hpu : procU = units := by
      simpa [filterUnits] using heq
    subst hpu
    exact h
  | cons s rest ih =>
    intro procU st heq h
    show SInvP size enc units units
      (sentLoop size ov enc docId (sentStep size ov enc docId st s) rest)
    by_cases htr : (trim s).isEmpty = true
    · rw [sentStep_skip size ov enc docId st s htr]
      have hfc : filterUnits (s :: rest) = filterUnits rest := by
        unfold filterUnits
        rw [List.filter_cons_of_neg]
        simp [htr]
      rw [hfc] at heq
      exact ih procU st heq h
    · have hfc : filterUnits (s :: rest) = s :: filterUnits rest := by
        unfold filterUnits
        rw [List.filter_cons_of_pos]
        simpa using htr
      rw [hfc] at heq
      have heq' : (procU ++ [s]) ++ filterUnits rest = units := by
        rw [List.append_assoc]
        simpa using heq
      have hsU : s ∈ units := by
        rw [← heq']
        exact List.mem_append_left _ (List.mem_append_right _ (List.mem_cons_self _ _))
      have hpre : procU ++ [s] <+: units := ⟨filterUnits rest, heq'⟩
      exact ih (procU ++ [s])
        (sentStep size ov enc docId st s)
        heq'
        (sentStepKeep_inv size ov enc units procU docId st s hov hU htr hsU hpre h)

theorem sentUnits_trim_ne (text : List Char) :
    ∀ u ∈ sentUnits text, trim u ≠ [] := by
  intro u hu
  unfold sentUnits filterUnits at hu
  have := List.of_mem_filter hu
  simpa using this

theorem chunk_by_sentences_master (size ov : Nat) (enc : Encoding)
    (text docId : List Char) (hov : ov < size) :
    ((chunk_by_sentences size ov enc text docId).map Chunk.chunk_id =
      List.range (chunk_by_sentences size ov enc text docId).length) ∧
    ∀ c ∈ chunk_by_sentences size ov enc text docId,
      c.metadata = [("strategy", "sentence_aware")] ∧
      0 < c.token_count ∧ trim c.text ≠ [] ∧
      c.token_count ≤ size + maxSentTokens enc text ∧
      (∃ run, run <:+: sentUnits text ∧
        c.text = trim ((run.map (fun s => s ++ [' '])).flatten)) := by
  have hU := sentUnits_trim_ne text
  have hinit : SInvP size enc (sentUnits text) [] ⟨[], 0, [], [], 0⟩ := by
    refine ⟨rfl, rfl, ?_, ⟨[], ⟨[], rfl⟩, rfl⟩, by simp, fun _ => rfl⟩
    intro c hc
    cases hc
  have hfin := sentLoop_inv size ov enc (sentUnits text) docId hov hU
    (re_split_sentences text) [] ⟨[], 0, [], [], 0⟩
    (by rw [List.nil_append]; rfl) hinit
  obtain ⟨i1, i2, i3, i4, i5, i6⟩ := hfin
  have hdef : chunk_by_sentences size ov enc text docId =
      (if (sentLoop size ov enc docId ⟨[], 0, [], [], 0⟩
            (re_split_sentences text)).current_tokens.isEmpty then
        (sentLoop size ov enc docId ⟨[], 0, [], [], 0⟩ (re_split_sentences text)).chunks
      else
        (sentLoop size ov enc docId ⟨[], 0, [], [], 0⟩ (re_split_sentences text)).chunks ++
          [mkSentChunk docId
            (sentLoop size ov enc docId ⟨[], 0, [], [], 0⟩ (re_split_sentences text))]) := rfl
  rw [hdef]
  by_cases hemp : (sentLoop size ov enc docId ⟨[], 0, [], [], 0⟩
      (re_split_sentences text)).current_tokens.isEmpty
  · rw [if_pos hemp]
    refine ⟨?_, fun c hc => ?_⟩
    · rw [i1, i2]
    · obtain ⟨p1, p2, p3, p4, p5⟩ := i3 c hc
      exact ⟨p1, p2, p3, p4, p5⟩
  · rw [if_neg hemp]
    have hne : (sentLoop size ov enc docId ⟨[], 0, [], [], 0⟩
        (re_split_sentences text)).current_tokens ≠ [] :=
      isEmpty_false_ne_nil (Bool.of_not_eq_true hemp)
    have hgood := mkSentChunk_good size enc (sentUnits text) (sentUnits text) docId
      (sentLoop size ov enc docId ⟨[], 0, [], [], 0⟩ (re_split_sentences text))
      hU ⟨[], List.append_nil _⟩ i4 i5 i6 hne
    refine ⟨?_, fun c hc => ?_⟩
    · simp [List.map_append, List.length_append, i1, i2, mkSentChunk, List.range_succ]
    · rcases List.mem_append.mp hc with hold | hnew
      · obtain ⟨p1, p2, p3, p4, p5⟩ := i3 c hold
        exact ⟨p1, p2, p3, p4, p5⟩
      · rw [List.mem_singleton] at hnew
        subst hnew
        obtain ⟨p1, p2, p3, p4, p5⟩ := hgood
        exact ⟨p1, p2, p3, p4, p5⟩

/-! ### The record-grouping loop -/

theorem chunk_by_tokens_pos (size ov : Nat) (enc : Encoding) (p docId : List Char)
    (hov : ov < size) :
    ∀ c ∈ chunk_by_tokens size ov enc p docId,
      0 < c.token_count ∧ trim c.text ≠ [] := by
  intro c hc
  rw [chunk_by_tokens_eq_loop] at hc
  obtain ⟨_, _, h3, h4, _, _, h7, h8, _⟩ :=
    tokenLoop_mem size (size - ov) enc (enc.encode p) docId 0 0 c hc
  constructor
  · rw [h4, h3]
    omega
  · exact isEmpty_false_ne_nil h7

theorem mem_of_mem_enumFrom {α : Type} :
    ∀ (l : List α) (i : Nat) (pr : Nat × α), pr ∈ l.enumFrom i → pr.2 ∈ l := by
  intro l
  induction l with
  | nil => intro i pr h; cases h
  | cons x xs ih =>
    intro i pr h
    rw [List.enumFrom_cons] at h
    rcases List.mem_cons.mp h with rfl | h'
    · exact List.mem_cons_self _ _
    · exact List.mem_cons_of_mem _ (ih (i + 1) pr h')

theorem renumber_ids (md : List (String × String)) :
    ∀ (subs : List Chunk) (i b : Nat),
      ((subs.enumFrom i).map (fun ic =>
        ({ ic.2 with chunk_id := b + ic.1, metadata := md } : Chunk))).map Chunk.chunk_id =
      List.range' (b + i) subs.length := by
  intro subs
  induction subs with
  | nil => intro i b; rfl
  | cons x xs ih =>
    intro i b
    rw [List.enumFrom_cons, List.map_cons, List.map_cons, List.length_cons,
      List.range'_succ]
    congr 1
    have := ih (i + 1) b
    rw [← Nat.add_assoc] at this
    exact this

theorem mkGroupChunk_good (size ov : Nat) (enc : Encoding) (docId : List Char)
    (md : List (String × String)) (allParts : List (List Char)) (st : GroupState)
    (hbuf : st.current_tokens = (st.current_text_parts.map enc.encode).flatten)
    (hparts : ∀ p ∈ st.current_text_parts, trim p ≠ [])
    (hstart : st.current_start_idx = 0)
    (hne : st.current_tokens ≠ []) :
    (mkGroupChunk docId md st).metadata = md ∧
    0 < (mkGroupChunk docId md st).token_count ∧
    trim (mkGroupChunk docId md st).text ≠ [] ∧
    (((mkGroupChunk docId md st).start_idx = 0 ∧
      (mkGroupChunk docId md st).end_idx = (mkGroupChunk docId md st).token_count) ∨
      FallbackSub size ov enc allParts docId md (mkGroupChunk docId md st)) := by
  have hpne : st.current_text_parts ≠ [] := by
    intro h0
    apply hne
    rw [hbuf, h0]
    rfl
  obtain ⟨p₀, ps, hcons⟩ := List.exists_cons_of_ne_nil hpne
  have hp₀ : p₀ ∈ st.current_text_parts := by
    rw [hcons]
    exact List.mem_cons_self _ _
  refine ⟨rfl, List.length_pos.mpr hne, ?_, Or.inl ⟨hstart, ?_⟩⟩
  · exact joinNL_has_not_ws hp₀ (hparts p₀ hp₀)
  · show st.current_start_idx + st.current_tokens.length = st.current_tokens.length
    rw [hstart]
    exact Nat.zero_add _

theorem groupFlushRaw_inv (size ov : Nat) (enc : Encoding) (docId : List Char)
    (md : List (String × String)) (allParts : List (List Char)) (st : GroupState)
    (h : GInvP size ov enc docId md allParts st)
    (hne : st.current_tokens ≠ []) :
    GInvP size ov enc docId md allParts (groupFlushRaw docId md st) := by
  obtain ⟨h1, h2, h3, h4, h5, h6⟩ := h
  refine ⟨?_, ?_, ?_, rfl, ?_, h6⟩
  · show (st.chunks ++ [mkGroupChunk docId md st]).map Chunk.chunk_id =
      List.range (st.chunk_id + 1)
    rw [List.map_append, h1, List.range_succ]
    rfl
  · show (st.chunks ++ [mkGroupChunk docId md st]).length = st.chunk_id + 1
    rw [List.length_append, h2]
    rfl
  · intro c hc
    rcases List.mem_append.mp hc with hold | hnew
    · exact h3 c hold
    · rw [List.mem_singleton] at hnew
      subst hnew
      exact mkGroupChunk_good size ov enc docId md allParts st h4 h5 h6 hne
  · intro p hp
    cases hp

theorem groupFallback_inv (size ov : Nat) (enc : Encoding) (docId : List Char)
    (md : List (String × String)) (allParts : List (List Char)) (st : GroupState)
    (part : List Char)
    (hov : ov < size)
    (hpmem : part ∈ allParts)
    (hbig : size < (enc.encode part).length)
    (h : GInvP size ov enc docId md allParts st) :
    GInvP size ov enc docId md allParts (groupFallback size ov enc docId md st part) := by
  obtain ⟨h1, h2, h3, h4, h5, h6⟩ := h
  refine ⟨?_, ?_, ?_, h4, h5, h6⟩
  · show (st.chunks ++ ((chunk_by_tokens size ov enc part docId).enumFrom 0).map (fun ic =>
        ({ ic.2 with chunk_id := st.chunk_id + ic.1, metadata := md } : Chunk))).map
          Chunk.chunk_id =
      List.range (st.chunk_id + (chunk_by_tokens size ov enc part docId).length)
    rw [List.map_append, h1]
    have hren := renumber_ids md (chunk_by_tokens size ov enc part docId) 0 st.chunk_id
    rw [Nat.add_zero] at hren
    rw [hren, List.range_eq_range', List.range_eq_range']
    have happ := List.range'_append_1 0 st.chunk_id
      (chunk_by_tokens size ov enc part docId).length
    rw [Nat.zero_add] at happ
    rw [happ, Nat.add_comm]
  · show (st.chunks ++ ((chunk_by_tokens size ov enc part docId).enumFrom 0).map (fun ic =>
        ({ ic.2 with chunk_id := st.chunk_id + ic.1, metadata := md } : Chunk))).length =
      st.chunk_id + (chunk_by_tokens size ov enc part docId).length
    rw [List.length_append, h2, List.length_map, List.enumFrom_length]
  · intro c hc
    replace hc : c ∈ st.chunks ++ ((chunk_by_tokens size ov enc part docId).enumFrom 0).map
      (fun ic => ({ ic.2 with chunk_id := st.chunk_id + ic.1, metadata := md } : Chunk)) := hc
    rcases List.mem_append.mp hc with hold | hnew
    · exact h3 c hold
    · obtain ⟨⟨i, c₀⟩, hicmem, rfl⟩ := List.mem_map.mp hnew
      have hc₀ : c₀ ∈ chunk_by_tokens size ov enc part docId :=
        mem_of_mem_enumFrom _ 0 (i, c₀) hicmem
      obtain ⟨hpos, htr⟩ := chunk_by_tokens_pos size ov enc part docId hov c₀ hc₀
      exact ⟨rfl, hpos, htr,
        Or.inr ⟨part, hpmem, hbig, c₀, hc₀, rfl, rfl, rfl, rfl, rfl⟩⟩

theorem groupAppend_inv (size ov : Nat) (enc : Encoding) (docId : List Char)
    (md : List (String × String)) (allParts : List (List Char)) (st : GroupState)
    (part : List Char)
    (hpt : trim part ≠ [])
    (h : GInvP size ov enc docId md allParts st) :
    GInvP size ov enc docId md allParts (groupAppend enc st part) := by
  obtain ⟨h1, h2, h3, h4, h5, h6⟩ := h
  refine ⟨h1, h2, h3, ?_, ?_, h6⟩
  · show st.current_tokens ++ enc.encode part =
      ((st.current_text_parts ++ [part]).map enc.encode).flatten
    rw [h4, List.map_append, List.flatten_append]
    simp
  · intro p hp
    rcases List.mem_append.mp hp with hold | hnew
    · exact h5 p hold
    · rw [List.mem_singleton] at hnew
      subst hnew
      exact hpt

theorem groupStep_inv (size ov : Nat) (enc : Encoding) (docId : List Char)
    (md : List (String × String)) (allParts : List (List Char)) (st : GroupState)
    (part : List Char)
    (hov : ov < size)
    (hpmem : part ∈ allParts)
    (h : GInvP size ov enc docId md allParts st) :
    GInvP size ov enc docId md allParts (groupStep size ov enc docId md st part) := by
  unfold groupStep
  by_cases htr : (trim part).isEmpty = true
  · rw [if_pos htr]
    exact h
  · rw [if_neg htr]
    have hpt : trim part ≠ [] := isEmpty_false_ne_nil (Bool.of_not_eq_true htr)
    by_cases hbig : size < (enc.encode part).length
    · rw [if_pos hbig]
      by_cases hemp : st.current_tokens.isEmpty = true
      · rw [if_pos hemp]
        exact groupFallback_inv size ov enc docId md allParts st part hov hpmem hbig h
      · rw [if_neg hemp]
        exact groupFallback_inv size ov enc docId md allParts _ part hov hpmem hbig
          (groupFlushRaw_inv size ov enc docId md allParts st h
            (isEmpty_false_ne_nil (Bool.of_not_eq_true hemp)))
    · rw [if_neg hbig]
      by_cases hovf : size < st.current_tokens.length + (enc.encode part).length
      · rw [if_pos hovf]
        have hne : st.current_tokens ≠ [] := by
          intro h0
          rw [h0] at hovf
          simp at hovf
          omega
        exact groupAppend_inv size ov enc docId md allParts _ part hpt
          (groupFlushRaw_inv size ov enc docId md allParts st h hne)
      · rw [if_neg hovf]
        exact groupAppend_inv size ov enc docId md allParts st part hpt h

theorem groupLoop_inv (size ov : Nat) (enc : Encoding) (docId : List Char)
    (md : List (String × String)) (allParts : List (List Char))
    (hov : ov < size) :
    ∀ (rem : List (List Char)) (st : GroupState),
      (∀ q ∈ rem, q ∈ allParts) →
      GInvP size ov enc docId md allParts st →
      GInvP size ov enc docId md allParts (groupLoop size ov enc docId md st rem) := by
  intro rem
  induction rem with
  | nil => intro st _ h; exact h
  | cons p rest ih =>
    intro st hsub h
    show GInvP size ov enc docId md allParts
      (groupLoop size ov enc docId md (groupStep size ov enc docId md st p) rest)
    refine ih (groupStep size ov enc docId md st p)
      (fun q hq => hsub q (List.mem_cons_of_mem _ hq)) ?_
    exact groupStep_inv size ov enc docId md allParts st p hov
      (hsub p (List.mem_cons_self _ _)) h

theorem chunk_group_strings_master (size ov : Nat) (enc : Encoding)
    (parts : List (List Char)) (docId : List Char) (md : List (String × String))
    (hov : ov < size) :
    ((chunk_group_strings size ov enc parts docId md).map Chunk.chunk_id =
      List.range (chunk_group_strings size ov enc parts docId md).length) ∧
    ∀ c ∈ chunk_group_strings size ov enc parts docId md,
      c.metadata = md ∧ 0 < c.token_count ∧ trim c.text ≠ [] ∧
      ((c.start_idx = 0 ∧ c.end_idx = c.token_count) ∨
        FallbackSub size ov enc parts docId md c) := by
  have hinit : GInvP size ov enc docId md parts ⟨[], 0, [], [], 0⟩ := by
    refine ⟨rfl, rfl, ?_, rfl, ?_, rfl⟩
    · intro c hc; cases hc
    · intro p hp; cases hp
  have hfin := groupLoop_inv size ov enc docId md parts hov parts ⟨[], 0, [], [], 0⟩
    (fun q hq => hq) hinit
  obtain ⟨i1, i2, i3, i4, i5, i6⟩ := hfin
  have hdef : chunk_group_strings size ov enc parts docId md =
      (if (groupLoop size ov enc docId md ⟨[], 0, [], [], 0⟩ parts).current_tokens.isEmpty then
        (groupLoop size ov enc docId md ⟨[], 0, [], [], 0⟩ parts).chunks
      else
        (groupLoop size ov enc docId md ⟨[], 0, [], [], 0⟩ parts).chunks ++
          [mkGroupChunk docId md
            (groupLoop size ov enc docId md ⟨[], 0, [], [], 0⟩ parts)]) := rfl
  rw [hdef]
  by_cases hemp : (groupLoop size ov enc docId md ⟨[], 0, [], [], 0⟩
      parts).current_tokens.isEmpty
  · rw [if_pos hemp]
    exact ⟨by rw [i1, i2], i3⟩
  · rw [if_neg hemp]
    have hne := isEmpty_false_ne_nil (Bool.of_not_eq_true hemp)
    have hgood := mkGroupChunk_good size ov enc docId md parts
      (groupLoop size ov enc docId md ⟨[], 0, [], [], 0⟩ parts) i4 i5 i6 hne
    refine ⟨?_, fun c hc => ?_⟩
    · simp [List.map_append, List.length_append, i1, i2, mkGroupChunk, List.range_succ]
    · rcases List.mem_append.mp hc with hold | hnew
      · exact i3 c hold
      · rw [List.mem_singleton] at hnew
        subst hnew
        exact hgood

theorem ne_nil_isEmpty_false {α : Type} {l : List α} (h : l ≠ []) :
    l.isEmpty = false := List.isEmpty_eq_false.mpr h

theorem groupStep_chunks_sub (size ov : Nat) (enc : Encoding) (docId : List Char)
    (md : List (String × String)) (st : GroupState) (part : List Char) :
    ∀ c ∈ st.chunks, c ∈ (groupStep size ov enc docId md st part).chunks := by
  intro c hc
  unfold groupStep
  by_cases htr : (trim part).isEmpty = true
  · rw [if_pos htr]
    exact hc
  · rw [if_neg htr]
    by_cases hbig : size < (enc.encode part).length
    · rw [if_pos hbig]
      by_cases hemp : st.current_tokens.isEmpty = true
      · rw [if_pos hemp]
        exact List.mem_append_left _ hc
      · rw [if_neg hemp]
        show c ∈ (st.chunks ++ [mkGroupChunk docId md st]) ++ _
        exact List.mem_append_left _ (List.mem_append_left _ hc)
    · rw [if_neg hbig]
      by_cases hovf : size < st.current_tokens.length + (enc.encode part).length
      · rw [if_pos hovf]
        show c ∈ st.chunks ++ [mkGroupChunk docId md st]
        exact List.mem_append_left _ hc
      · rw [if_neg hovf]
        exact hc

theorem groupLoop_keep (size ov : Nat) (enc : Encoding) (docId : List Char)
    (md : List (String × String)) (allParts : List (List Char))
    (hov : ov < size)
    (henc : ∀ s : List Char, trim s ≠ [] → enc.encode s ≠ []) :
    ∀ (rem : List (List Char)) (st : GroupState) (p₀ : List Char),
      (∀ q ∈ rem, q ∈ allParts) →
      GInvP size ov enc docId md allParts st →
      trim p₀ ≠ [] →
      (enc.encode p₀).length ≤ size →
      (p₀ ∈ rem ∨ p₀ ∈ st.current_text_parts ∨ ∃ c ∈ st.chunks, p₀ <:+: c.text) →
      ∃ c ∈ groupFinal docId md (groupLoop size ov enc docId md st rem),
        p₀ <:+: c.text := by
  intro rem
  induction rem with
  | nil =>
    intro st p₀ _ h hptr hplen hd
    obtain ⟨_, _, _, h4, h5, _⟩ := h
    show ∃ c ∈ groupFinal docId md st, p₀ <:+: c.text
    unfold groupFinal
    rcases hd with h0 | hP | ⟨c, hcmem, hinf⟩
    · cases h0
    · have htne : st.current_tokens ≠ [] := by
        rw [h4]
        intro hfl
        exact henc p₀ hptr
          (List.flatten_eq_nil_iff.mp hfl (enc.encode p₀) (List.mem_map_of_mem _ hP))
      rw [if_neg (by rw [ne_nil_isEmpty_false htne]; exact Bool.false_ne_true)]
      refine ⟨mkGroupChunk docId md st,
        List.mem_append_right _ (List.mem_singleton.mpr rfl), ?_⟩
      show p₀ <:+: joinNL st.current_text_parts
      exact mem_joinNL hP
    · by_cases hemp : st.current_tokens.isEmpty = true
      · rw [if_pos hemp]
        exact ⟨c, hcmem, hinf⟩
      · rw [if_neg hemp]
        exact ⟨c, List.mem_append_left _ hcmem, hinf⟩
  | cons q rest ih =>
    intro st p₀ hsub h hptr hplen hd
    show ∃ c ∈ groupFinal docId md
      (groupLoop size ov enc docId md (groupStep size ov enc docId md st q) rest), p₀ <:+: c.text
    have hinv' := groupStep_inv size ov enc docId md allParts st q hov
      (hsub q (List.mem_cons_self _ _)) h
    refine ih (groupStep size ov enc docId md st q) p₀
      (fun r hr => hsub r (List.mem_cons_of_mem _ hr)) hinv' hptr hplen ?_
    obtain ⟨_, _, _, h4, h5, _⟩ := h
    rcases hd with hq | hP | ⟨c, hcm, hinf⟩
    · rcases List.mem_cons.mp hq with rfl | hrest
      · right; left
        unfold groupStep
        rw [if_neg (by rw [ne_nil_isEmpty_false hptr]; exact Bool.false_ne_true),
          if_neg (by omega)]
        by_cases hovf : size < st.current_tokens.length + (enc.encode p₀).length
        · rw [if_pos hovf]
          show p₀ ∈ (groupFlushRaw docId md st).current_text_parts ++ [p₀]
          exact List.mem_append_right _ (List.mem_singleton.mpr rfl)
        · rw [if_neg hovf]
          show p₀ ∈ st.current_text_parts ++ [p₀]
          exact List.mem_append_right _ (List.mem_singleton.mpr rfl)
      · left
        exact hrest
    · unfold groupStep
      by_cases htr : (trim q).isEmpty = true
      · rw [if_pos htr]
        right; left
        exact hP
      · rw [if_neg htr]
        by_cases hbig : size < (enc.encode q).length
        · rw [if_pos hbig]
          have htne : st.current_tokens ≠ [] := by
            rw [h4]
            intro hfl
            exact henc p₀ (h5 p₀ hP)
              (List.flatten_eq_nil_iff.mp hfl (enc.encode p₀) (List.mem_map_of_mem _ hP))
          rw [if_neg (by rw [ne_nil_isEmpty_false htne]; exact Bool.false_ne_true)]
          right; right
          refine ⟨mkGroupChunk docId md st, ?_, ?_⟩
          · show mkGroupChunk docId md st ∈ (st.chunks ++ [mkGroupChunk docId md st]) ++ _
            exact List.mem_append_left _
              (List.mem_append_right _ (List.mem_singleton.mpr rfl))
          · show p₀ <:+: joinNL st.current_text_parts
            exact mem_joinNL hP
        · rw [if_neg hbig]
          by_cases hovf : size < st.current_tokens.length + (enc.encode q).length
          · rw [if_pos hovf]
            right; right
            refine ⟨mkGroupChunk docId md st, ?_, ?_⟩
            · show mkGroupChunk docId md st ∈ st.chunks ++ [mkGroupChunk docId md st]
              exact List.mem_append_right _ (List.mem_singleton.mpr rfl)
            · show p₀ <:+: joinNL st.current_text_parts
              exact mem_joinNL hP
          · rw [if_neg hovf]
            right; left
            show p₀ ∈ st.current_text_parts ++ [q]
            exact List.mem_append_left _ hP
    · right; right
      exact ⟨c, groupStep_chunks_sub size ov enc docId md st q c hcm, hinf⟩

/-! ### Helper facts about the concrete character tokenizer -/

theorem charEnc_henc : ∀ s : List Char, trim s ≠ [] → charEnc.encode s ≠ [] := by
  intro s hs henc
  apply hs
  have hs0 : s = [] := by simpa [charEnc] using henc
  rw [hs0]
  rfl

/-! ### The claims -/

/-- C1, counterexample: the constructor accepts `chunk_size = 0` with
`chunk_overlap = -1`, a configuration that violates both "chunk_size must be
a positive integer" and "chunk_overlap a non-negative integer", without
raising; only the relation `overlap >= size` is ever checked. -/
theorem C1_counterexample :
    TextChunker.init 0 (-1) = Except.ok (0, -1) ∧
    ¬(0 < (0 : Int)) ∧ (-1 : Int) < 0 := by
  refine ⟨rfl, by decide, by decide⟩

/-- C1, amended: construction fails exactly when `chunk_overlap >= chunk_size`
(so in particular it always fails for `overlap >= size` with positive size),
and on success the configuration is stored exactly as passed, never clamped;
positivity of `chunk_size` and non-negativity of `chunk_overlap` are not
validated. -/
theorem C1_init_validation (s o : Int) :
    (TextChunker.init s o =
      Except.error "chunk_overlap must be less than chunk_size" ↔ s ≤ o) ∧
    (o < s → TextChunker.init s o = Except.ok (s, o)) := by
  unfold TextChunker.init
  constructor
  · constructor
    · intro h
      by_cases hc : s ≤ o
      · exact hc
      · rw [if_neg hc] at h
        cases h
    · intro h
      rw [if_pos h]
  · intro h
    rw [if_neg (by omega)]

theorem C1_witness :
    TextChunker.init 100 10 = Except.ok (100, 10) ∧
    (TextChunker.init 10 10 =
      Except.error "chunk_overlap must be less than chunk_size" ↔ (10 : Int) ≤ 10) :=
  ⟨(C1_init_validation 100 10).2 (by decide), (C1_init_validation 10 10).1⟩

/-- C2, counterexample: `chunk_group_strings` called with an empty metadata
map emits a chunk whose metadata has no `strategy` key at all — the record
grouper only copies the caller's map and never stamps a strategy. -/
theorem C2_counterexample :
    (chunk_group_strings 5 0 charEnc [str "ab"] (str "d") []).map
      (fun c => hasKey c.metadata "strategy") = [false] ∧
    (chunk_group_strings 5 0 charEnc [str "ab"] (str "d") []).length = 1 := by
  exact ⟨by decide, by decide⟩

/-- C2, amended: chunks from `chunk_by_sentences` carry exactly
`strategy = sentence_aware` and chunks from `chunk_by_tokens` exactly
`strategy = token_window`, while every chunk emitted by
`chunk_group_strings` (buffer chunks and re-numbered fallback sub-chunks
alike) carries exactly a copy of the caller-supplied metadata map, which
contains a `strategy` key only if the caller put one there. -/
theorem C2_strategy_metadata (size ov : Nat) (enc : Encoding)
    (text docId : List Char) (parts : List (List Char))
    (md : List (String × String)) (hov : ov < size) :
    (∀ c ∈ chunk_by_sentences size ov enc text docId,
      c.metadata = [("strategy", "sentence_aware")]) ∧
    (∀ c ∈ chunk_by_tokens size ov enc text docId,
      c.metadata = [("strategy", "token_window")]) ∧
    (∀ c ∈ chunk_group_strings size ov enc parts docId md, c.metadata = md) := by
  refine ⟨fun c hc => ?_, fun c hc => ?_, fun c hc => ?_⟩
  · exact ((chunk_by_sentences_master size ov enc text docId hov).2 c hc).1
  · rw [chunk_by_tokens_eq_loop] at hc
    exact (tokenLoop_mem size (size - ov) enc (enc.encode text) docId 0 0 c hc).1
  · exact ((chunk_group_strings_master size ov enc parts docId md hov).2 c hc).1

theorem C2_witness :
    ((chunk_by_sentences 5 1 charEnc (str "Hi.") (str "d")).headD default).metadata =
      [("strategy", "sentence_aware")] ∧
    ((chunk_by_tokens 5 1 charEnc (str "ab") (str "d")).headD default).metadata =
      [("strategy", "token_window")] ∧
    ((chunk_group_strings 5 1 charEnc [str "ab"] (str "d")
      [("k", "v")]).headD default).metadata = [("k", "v")] :=
  ⟨(C2_strategy_metadata 5 1 charEnc (str "Hi.") (str "d") [str "ab"] [("k", "v")]
      (by decide)).1 _ (by decide),
   (C2_strategy_metadata 5 1 charEnc (str "ab") (str "d") [str "ab"] [("k", "v")]
      (by decide)).2.1 _ (by decide),
   (C2_strategy_metadata 5 1 charEnc (str "ab") (str "d") [str "ab"] [("k", "v")]
      (by decide)).2.2 _ (by decide)⟩

/-- C3, counterexample: with `chunk_size = 1`, `chunk_overlap = 0` and the
character tokenizer, the input "a b c" yields three chunks whose start
offsets are 0, 2, 4: the whitespace-only windows at offsets 1 and 3 are
dropped, so two consecutive emitted chunks (the first two, neither of them
the final chunk) differ in `start_idx` by 2, not by
`chunk_size - chunk_overlap = 1`. -/
theorem C3_counterexample :
    (chunk_by_tokens 1 0 charEnc (str "a b c") (str "d")).map Chunk.start_idx =
      [0, 2, 4] ∧
    (chunk_by_tokens 1 0 charEnc (str "a b c") (str "d")).map Chunk.token_count =
      [1, 1, 1] ∧
    (1 : Nat) - 0 = 1 := by
  exact ⟨by decide, by decide, rfl⟩

/-- C3, amended: for every valid configuration, every chunk emitted by the
sliding window has `token_count ≤ chunk_size`, and the start offsets of
consecutive emitted chunks differ by a positive multiple of
`chunk_size - chunk_overlap` (equal to one step exactly when no intermediate
window was dropped for decoding to whitespace-only text). -/
theorem C3_window_stride (size ov : Nat) (enc : Encoding) (text docId : List Char)
    (hov : ov < size) :
    (∀ c ∈ chunk_by_tokens size ov enc text docId, c.token_count ≤ size) ∧
    List.Chain' (fun a b => ∃ k, 0 < k ∧ b.start_idx = a.start_idx + k * (size - ov))
      (chunk_by_tokens size ov enc text docId) := by
  rw [chunk_by_tokens_eq_loop]
  refine ⟨fun c hc => ?_, ?_⟩
  · exact (tokenLoop_mem size (size - ov) enc (enc.encode text) docId 0 0 c hc).2.2.2.2.1
  · exact tokenLoop_chain size (size - ov) enc (enc.encode text) docId 0 0

theorem C3_witness :
    ((chunk_by_tokens 2 0 charEnc (str "abc") (str "d")).headD default).token_count ≤ 2 ∧
    List.Chain' (fun a b => ∃ k, 0 < k ∧ b.start_idx = a.start_idx + k * (2 - 0))
      (chunk_by_tokens 2 0 charEnc (str "abc") (str "d")) :=
  ⟨(C3_window_stride 2 0 charEnc (str "abc") (str "d") (by decide)).1 _ (by decide),
   (C3_window_stride 2 0 charEnc (str "abc") (str "d") (by decide)).2⟩

/-- C4: sentence-aware chunking never splits a sentence unit: every emitted
chunk's text is a contiguous run of whole sentence units of the input, in
original order, each unit carrying its re-joining space and the whole chunk
trimmed of outer whitespace; and a chunk's token count can exceed
`chunk_size` by at most the largest token count of a single sentence unit,
so an oversized sentence is kept whole rather than split. -/
theorem C4_sentence_atomicity (size ov : Nat) (enc : Encoding)
    (text docId : List Char) (hov : ov < size) :
    ∀ c ∈ chunk_by_sentences size ov enc text docId,
      (∃ run, run <:+: sentUnits text ∧
        c.text = trim ((run.map (fun s => s ++ [' '])).flatten)) ∧
      c.token_count ≤ size + maxSentTokens enc text := by
  intro c hc
  obtain ⟨_, _, _, h4, h5⟩ := (chunk_by_sentences_master size ov enc text docId hov).2 c hc
  exact ⟨h5, h4⟩

theorem C4_witness :
    (∃ run, run <:+: sentUnits (str "Hi a. Go b! End") ∧
      ((chunk_by_sentences 4 1 charEnc (str "Hi a. Go b! End") (str "d")).headD
        default).text = trim ((run.map (fun s => s ++ [' '])).flatten)) ∧
    ((chunk_by_sentences 4 1 charEnc (str "Hi a. Go b! End") (str "d")).headD
      default).token_count ≤ 4 + maxSentTokens charEnc (str "Hi a. Go b! End") :=
  C4_sentence_atomicity 4 1 charEnc (str "Hi a. Go b! End") (str "d") (by decide)
    _ (by decide)

/-- C5: the record grouper never splits a record that fits in the window:
every non-blank record whose token count is at most `chunk_size` appears
intact (as a contiguous substring) in the text of an emitted chunk — it is
placed whole into exactly one newline-joined buffer chunk.  The tokenizer is
assumed to encode every non-blank string to at least one token, as the
character tokenizer (and any real BPE tokenizer) does. -/
theorem C5_record_intact (size ov : Nat) (enc : Encoding)
    (parts : List (List Char)) (docId : List Char) (md : List (String × String))
    (hov : ov < size)
    (henc : ∀ s : List Char, trim s ≠ [] → enc.encode s ≠ [])
    (p : List Char) (hp : p ∈ parts) (hptr : trim p ≠ [])
    (hplen : (enc.encode p).length ≤ size) :
    ∃ c ∈ chunk_group_strings size ov enc parts docId md, p <:+: c.text := by
  have hinit : GInvP size ov enc docId md parts ⟨[], 0, [], [], 0⟩ := by
    refine ⟨rfl, rfl, ?_, rfl, ?_, rfl⟩
    · intro c hc; cases hc
    · intro q hq; cases hq
  exact groupLoop_keep size ov enc docId md parts hov henc parts ⟨[], 0, [], [], 0⟩
    p (fun q hq => hq) hinit hptr hplen (Or.inl hp)

theorem C5_witness :
    ∃ c ∈ chunk_group_strings 3 1 charEnc [str "ab", str "cd"] (str "d") [],
      str "ab" <:+: c.text :=
  C5_record_intact 3 1 charEnc [str "ab", str "cd"] (str "d") [] (by decide)
    charEnc_henc (str "ab") (by decide) (by decide) (by decide)

/-- C6, counterexample: with `chunk_size = 1`, `chunk_overlap = 0` and the
character tokenizer, the oversized record "a b" (3 tokens) produces fallback
sub-chunks with token ranges [0,1) and [2,3) only: the middle window [1,2)
decodes to a single space and is dropped, so token index 1 of the record is
covered by no emitted sub-chunk and the union of the ranges does not cover
the record's token range. -/
theorem C6_counterexample :
    (chunk_group_strings 1 0 charEnc [str "a b"] (str "d") []).map
      (fun c => (c.start_idx, c.end_idx)) = [(0, 1), (2, 3)] ∧
    (charEnc.encode (str "a b")).length = 3 ∧
    ((chunk_group_strings 1 0 charEnc [str "a b"] (str "d") []).all
      (fun c => decide (c.end_idx ≤ 1 ∨ 1 < c.start_idx))) = true := by
  exact ⟨by decide, by decide, by decide⟩

/-- C6, amended: for a valid configuration, every token index of a record is
inside some window of the fallback sliding-window pass over that record, and
it lies inside an emitted sub-chunk's `[start_idx, end_idx)` range unless a
window containing it decoded (after artifact stripping) to whitespace-only
text and was therefore dropped; coverage is complete whenever no window is
dropped. -/
theorem C6_fallback_coverage (size ov : Nat) (enc : Encoding) (p docId : List Char)
    (hov : ov < size) (i : Nat) (hi : i < (enc.encode p).length) :
    (∃ c ∈ chunk_by_tokens size ov enc p docId,
      c.start_idx ≤ i ∧ i < c.end_idx) ∨
    (∃ s, s ≤ i ∧ i < min (s + size) (enc.encode p).length ∧
      (trim (windowText enc (enc.encode p) s
        (min (s + size) (enc.encode p).length))).isEmpty = true) := by
  rw [chunk_by_tokens_eq_loop]
  have hcov := tokenLoop_cover size (size - ov) enc (enc.encode p) docId
    (by omega) (by omega) 0 0 i (Nat.zero_le i) hi
  rcases hcov with hleft | ⟨s, _, hrest⟩
  · exact Or.inl hleft
  · exact Or.inr ⟨s, hrest⟩

theorem C6_witness :
    (∃ c ∈ chunk_by_tokens 2 0 charEnc (str "abc") (str "d"),
      c.start_idx ≤ 1 ∧ 1 < c.end_idx) ∨
    (∃ s, s ≤ 1 ∧ 1 < min (s + 2) (charEnc.encode (str "abc")).length ∧
      (trim (windowText charEnc (charEnc.encode (str "abc")) s
        (min (s + 2) (charEnc.encode (str "abc")).length))).isEmpty = true) :=
  C6_fallback_coverage 2 0 charEnc (str "abc") (str "d") (by decide) 1 (by decide)

/-- C7, counterexample: an input that itself contains the replacement
character away from the chunk boundaries keeps it: the emitted chunk's text
is exactly `a<U+FFFD>b`, so it is not true that no emitted chunk ever
contains a replacement character — only boundary artifacts are stripped. -/
theorem C7_counterexample :
    (chunk_by_tokens 10 0 charEnc ['a', replChar, 'b'] (str "d")).map Chunk.text =
      [['a', replChar, 'b']] ∧
    ((chunk_by_tokens 10 0 charEnc ['a', replChar, 'b']
      (str "d")).headD default).text.contains replChar = true := by
  exact ⟨by decide, by decide⟩

/-- C7, amended: the text of every chunk emitted by the sliding window
neither starts nor ends with the replacement character: the strip of the
sentinel replacement-character class removes every artifact that decoding a
cut multi-byte token can leave at a window boundary.  Replacement characters
in the interior of a chunk (present in the input itself) may remain. -/
theorem C7_no_boundary_artifact (size ov : Nat) (enc : Encoding)
    (text docId : List Char) :
    ∀ c ∈ chunk_by_tokens size ov enc text docId,
      c.text.head? ≠ some replChar ∧ c.text.getLast? ≠ some replChar := by
  intro c hc
  rw [chunk_by_tokens_eq_loop] at hc
  have h6 := (tokenLoop_mem size (size - ov) enc (enc.encode text) docId 0 0
    c hc).2.2.2.2.2.1
  constructor
  · intro heq
    rw [h6] at heq
    have := pyStrip_head?_not (fun a => a == replChar)
      (enc.decode (pySlice (enc.encode text) c.start_idx c.end_idx)) replChar heq
    simp at this
  · intro heq
    rw [h6] at heq
    have := pyStrip_getLast?_not (fun a => a == replChar)
      (enc.decode (pySlice (enc.encode text) c.start_idx c.end_idx)) replChar heq
    simp at this

theorem C7_witness :
    ((chunk_by_tokens 2 0 charEnc (str "ab") (str "d")).headD default).text.head? ≠
      some replChar ∧
    ((chunk_by_tokens 2 0 charEnc (str "ab") (str "d")).headD default).text.getLast? ≠
      some replChar :=
  C7_no_boundary_artifact 2 0 charEnc (str "ab") (str "d") _ (by decide)

/-- C8: under a valid configuration (and a tokenizer that encodes the empty
string to no tokens, as every real tokenizer does), every chunk emitted by
any of the three operations has a positive `token_count` and non-empty
trimmed text — whitespace-only units are skipped and whitespace-only decodes
dropped — and empty input yields zero chunks in every strategy. -/
theorem C8_nonempty_chunks (size ov : Nat) (enc : Encoding)
    (text docId : List Char) (parts : List (List Char))
    (md : List (String × String))
    (hov : ov < size) (hempty : enc.encode [] = []) :
    (∀ c ∈ chunk_by_sentences size ov enc text docId,
      0 < c.token_count ∧ trim c.text ≠ []) ∧
    (∀ c ∈ chunk_by_tokens size ov enc text docId,
      0 < c.token_count ∧ trim c.text ≠ []) ∧
    (∀ c ∈ chunk_group_strings size ov enc parts docId md,
      0 < c.token_count ∧ trim c.text ≠ []) ∧
    chunk_by_sentences size ov enc [] docId = [] ∧
    chunk_by_tokens size ov enc [] docId = [] ∧
    chunk_group_strings size ov enc [] docId md = [] := by
  refine ⟨fun c hc => ?_, chunk_by_tokens_pos size ov enc text docId hov,
    fun c hc => ?_, rfl, ?_, rfl⟩
  · obtain ⟨_, p2, p3, _, _⟩ :=
      (chunk_by_sentences_master size ov enc text docId hov).2 c hc
    exact ⟨p2, p3⟩
  · obtain ⟨_, p2, p3, _⟩ :=
      (chunk_group_strings_master size ov enc parts docId md hov).2 c hc
    exact ⟨p2, p3⟩
  · show tokenLoopF size (size - ov) enc (enc.encode []) docId
      ((enc.encode []).length + 1) 0 0 = []
    rw [hempty]
    show (if 0 < size - ov ∧ 0 < ([] : List Nat).length then _ else _) = ([] : List Chunk)
    rw [if_neg (by simp)]

theorem C8_witness :
    (0 < ((chunk_by_sentences 5 1 charEnc (str "Hi.") (str "d")).headD
        default).token_count ∧
      trim ((chunk_by_sentences 5 1 charEnc (str "Hi.") (str "d")).headD
        default).text ≠ []) ∧
    chunk_by_sentences 5 1 charEnc [] (str "d") = [] ∧
    chunk_by_tokens 5 1 charEnc [] (str "d") = [] ∧
    chunk_group_strings 5 1 charEnc [] (str "d") [] = [] :=
  ⟨(C8_nonempty_chunks 5 1 charEnc (str "Hi.") (str "d") [] [] (by decide) rfl).1
      _ (by decide),
   (C8_nonempty_chunks 5 1 charEnc (str "Hi.") (str "d") [] [] (by decide) rfl).2.2.2.1,
   (C8_nonempty_chunks 5 1 charEnc (str "Hi.") (str "d") [] [] (by decide) rfl).2.2.2.2.1,
   (C8_nonempty_chunks 5 1 charEnc (str "Hi.") (str "d") [] [] (by decide) rfl).2.2.2.2.2⟩

/-- C9: in every strategy the `chunk_id`s of the returned chunks form the
contiguous 0-based sequence `0, 1, 2, ...` — in particular the fallback
sub-chunks of an oversized record are re-numbered to continue the document's
sequence. -/
theorem C9_contiguous_ids (size ov : Nat) (enc : Encoding)
    (text docId : List Char) (parts : List (List Char))
    (md : List (String × String)) (hov : ov < size) :
    ((chunk_by_sentences size ov enc text docId).map Chunk.chunk_id =
      List.range (chunk_by_sentences size ov enc text docId).length) ∧
    ((chunk_by_tokens size ov enc text docId).map Chunk.chunk_id =
      List.range (chunk_by_tokens size ov enc text docId).length) ∧
    ((chunk_group_strings size ov enc parts docId md).map Chunk.chunk_id =
      List.range (chunk_group_strings size ov enc parts docId md).length) := by
  refine ⟨(chunk_by_sentences_master size ov enc text docId hov).1, ?_,
    (chunk_group_strings_master size ov enc parts docId md hov).1⟩
  rw [chunk_by_tokens_eq_loop, List.range_eq_range']
  exact tokenLoop_ids size (size - ov) enc (enc.encode text) docId 0 0

theorem C9_witness :
    ((chunk_by_sentences 4 1 charEnc (str "Hi a. Go b! End") (str "d")).map
      Chunk.chunk_id =
      List.range (chunk_by_sentences 4 1 charEnc (str "Hi a. Go b! End")
        (str "d")).length) ∧
    ((chunk_by_tokens 1 0 charEnc (str "a b c") (str "d")).map Chunk.chunk_id =
      List.range (chunk_by_tokens 1 0 charEnc (str "a b c") (str "d")).length) ∧
    ((chunk_group_strings 1 0 charEnc [str "a b"] (str "d") []).map Chunk.chunk_id =
      List.range (chunk_group_strings 1 0 charEnc [str "a b"] (str "d") []).length) :=
  ⟨(C9_contiguous_ids 4 1 charEnc (str "Hi a. Go b! End") (str "d") [] []
      (by decide)).1,
   (C9_contiguous_ids 1 0 charEnc (str "a b c") (str "d") [str "a b"] []
      (by decide)).2.1,
   (C9_contiguous_ids 1 0 charEnc (str "a b c") (str "d") [str "a b"] []
      (by decide)).2.2⟩

/-- C10: every chunk that `chunk_group_strings` emits from a buffer of
grouped records has `start_idx = 0` and `end_idx = token_count` — the
approximate start tracker is initialised to zero and never advanced — and
every other emitted chunk is a fallback sub-chunk of an oversized record
(sharing its window's exact offsets, with only its id and metadata
re-assigned). -/
theorem C10_group_offsets (size ov : Nat) (enc : Encoding)
    (parts : List (List Char)) (docId : List Char)
    (md : List (String × String)) (hov : ov < size) :
    ∀ c ∈ chunk_group_strings size ov enc parts docId md,
      (c.start_idx = 0 ∧ c.end_idx = c.token_count) ∨
      FallbackSub size ov enc parts docId md c :=
  fun c hc => ((chunk_group_strings_master size ov enc parts docId md hov).2 c hc).2.2.2

theorem C10_witness :
    (((chunk_group_strings 5 0 charEnc [str "ab", str "cd"] (str "d")
        []).headD default).start_idx = 0 ∧
      ((chunk_group_strings 5 0 charEnc [str "ab", str "cd"] (str "d")
        []).headD default).end_idx =
      ((chunk_group_strings 5 0 charEnc [str "ab", str "cd"] (str "d")
        []).headD default).token_count) ∨
    FallbackSub 5 0 charEnc [str "ab", str "cd"] (str "d") []
      ((chunk_group_strings 5 0 charEnc [str "ab", str "cd"] (str "d")
        []).headD default) :=
  C10_group_offsets 5 0 charEnc [str "ab", str "cd"] (str "d") [] (by decide)
    _ (by decide)
